import Mathlib

/-!
Verification of the threshold key-custody and cross-chain recovery subsystem
of the BitGo command-line wallet tool.

The development shallowly embeds the two core source files:

* `src/bgcl.js` — split-key generation (`genSplitKey`, `handleSplitKeys`) and
  threshold recovery (`handleRecoverKeys` with its trial-decryption password
  loop `getPassword`), including the interactive numeric-input validation
  helpers (`UserInput.getIntVariable`, `UserInput.getVariable`).
* `src/recovery.js` — the cross-chain recovery transaction builder
  (`CrossChainRecoveryTool.buildInputs`, `setFees`, `buildOutputs`,
  `buildTransaction`).

External collaborators that the repository only calls (the `secrets.js`
Shamir secret-sharing library, the `sjcl` authenticated encryption
primitives, and the bitcoin HD-key derivation of the `bitgo` library) are
not part of the repository source; they are modelled from the spec, with
their doc comments marking them as such.  Secrets and shares live in a
prime field `ZMod p`; the spec's 256-bit seeds and the GF(256)-based share
encoding of the library are represented by field elements, with each share
carrying its evaluation point exactly as the library's share strings embed
their share index.
-/

namespace BitgoCli

/-- Modelled from the spec: `sjcl` authenticated-encryption ciphertext
("opaque ciphertext ... each encrypted with a distinct password").  The
model records the password the payload was sealed with; decryption with any
other password fails with an integrity error, which is the property the
trial-decryption loop of `handleRecoverKeys` relies on. -/
structure Ciphertext (α : Type) where
  password : String
  payload : α
  deriving DecidableEq

/-- Modelled from the spec: `sjcl.encrypt` / `bitgo.encrypt` (password-based
authenticated encryption of a share). -/
def sjclEncrypt {α : Type} (pw : String) (input : α) : Ciphertext α :=
  { password := pw, payload := input }

/-- Modelled from the spec: `sjcl.decrypt`.  Returns `none` (the model of a
thrown integrity/format error) exactly when the password is wrong. -/
def sjclDecrypt {α : Type} (pw : String) (c : Ciphertext α) : Option α :=
  if c.password = pw then some c.payload else none

/-- Horner evaluation of a polynomial given by its coefficient list
(constant coefficient first).  Used to model the share polynomial of the
`secrets.js` threshold scheme. -/
def polyEval {p : ℕ} : List (ZMod p) → ZMod p → ZMod p
  | [], _ => 0
  | a :: rest, x => a + x * polyEval rest x

/-- The evaluation point of share number `i` (0-based): the library indexes
shares by the nonzero field element `i + 1`. -/
def xcoord (p : ℕ) (i : ℕ) : ZMod p := ((i + 1 : ℕ) : ZMod p)

/-- Modelled from the spec: `secrets.share(seed, n, m)` — "split the seed
into `n` shares such that any `m` reconstruct it exactly (a
threshold/(m,n) secret-sharing transform)".  The random polynomial
coefficients are constructor-injected (spec §9: model the entropy source as
an explicit injected random source); a caller supplies `m - 1` of them.
Share `i` is the pair of its evaluation point and the polynomial value
there, as the library's share strings embed the share index. -/
def secretsShare {p : ℕ} (seed : ZMod p) (coeffs : List (ZMod p)) (n : ℕ) :
    List (ZMod p × ZMod p) :=
  (List.range n).map (fun i => (xcoord p i, polyEval (seed :: coeffs) (xcoord p i)))

/-- Modular inverse computed as `a ^ (p - 2)`; for prime `p` it agrees with
the field inverse on nonzero elements (Fermat), and the power form keeps
the definition kernel-computable. -/
def fieldInv {p : ℕ} (a : ZMod p) : ZMod p := a ^ (p - 2)

/-- The Lagrange weight of point `q` among the points `pts`: the product of
`x / (x - q.1)` over the evaluation points `x` of the other shares. -/
def lagWeight {p : ℕ} (pts : List (ZMod p × ZMod p)) (q : ZMod p × ZMod p) : ZMod p :=
  ((pts.filter (fun r => decide (r.1 ≠ q.1))).map
    (fun r => r.1 * fieldInv (r.1 - q.1))).prod

/-- Modelled from the spec: `secrets.combine(shares)` — "recombine `m`
shares via the threshold-reconstruction inverse of the split transform":
Lagrange interpolation at zero of the share points. -/
def secretsCombine {p : ℕ} (pts : List (ZMod p × ZMod p)) : ZMod p :=
  (pts.map (fun q => q.2 * lagWeight pts q)).sum

/-- A decrypted share payload.  `bgcl.js` keeps both kinds as strings: for
`n == 1` the sole "share" is the raw seed itself (`genSplitKey`: "If n==1,
we're not splitting, just encrypt"), otherwise each share is a
`secrets.js` share string, modelled as its evaluation point and value. -/
inductive SharePayload (p : ℕ) where
  | whole (s : ZMod p)
  | point (x y : ZMod p)
  deriving DecidableEq

/-- The unencrypted share list of `genSplitKey` (`bgcl.js`): the raw seed
when `n = 1`, else the `secrets.share` output. -/
def rawShares {p : ℕ} (seed : ZMod p) (coeffs : List (ZMod p)) (n : ℕ) :
    List (SharePayload p) :=
  if n = 1 then [SharePayload.whole seed]
  else (secretsShare seed coeffs n).map (fun q => SharePayload.point q.1 q.2)

/-- The non-index fields of one generated split key, as returned by
`genSplitKey` (`bgcl.js`). -/
structure GenKeyResult (p : ℕ) where
  xpub : ℕ
  m : ℕ
  n : ℕ
  seedShares : List (Ciphertext (SharePayload p))
  deriving DecidableEq

/-- Embedding of `BGCL.genSplitKey` (`bgcl.js`): generate the share list
for a fresh seed and encrypt share `i` with `params['password' + i]`.  The
fresh seed and the random polynomial coefficients are injected parameters
(spec §9), and the HD public-key derivation
(`bitcoin.HDNode.fromSeedHex(seed).neutered().toBase58()`) of the external
bitcoin library is the injected function `deriveXpub`. -/
def genSplitKey {p : ℕ} (deriveXpub : ZMod p → ℕ) (m n : ℕ) (seed : ZMod p)
    (coeffs : List (ZMod p)) (passwords : ℕ → String) : GenKeyResult p :=
  { xpub := deriveXpub seed, m := m, n := n,
    seedShares := (rawShares seed coeffs n).enum.map
      (fun ish => sjclEncrypt (passwords ish.1) ish.2) }

/-- One record of the JSON batch file written by `handleSplitKeys`
(`bgcl.js`): `{ index, xpub, m, n, seedShares }`. -/
structure SplitKeyRecord (p : ℕ) where
  index : ℕ
  xpub : ℕ
  m : ℕ
  n : ℕ
  seedShares : List (Ciphertext (SharePayload p))
  deriving DecidableEq

/-- The record `handleSplitKeys` builds for batch position `idx`:
`{ index: idx, xpub: key.xpub, m: key.m, n: key.n, seedShares: key.seedShares }`
with `key = genSplitKey(input)`. -/
def toolRecord {p : ℕ} (deriveXpub : ZMod p → ℕ) (idx m n : ℕ) (seed : ZMod p)
    (coeffs : List (ZMod p)) (passwords : ℕ → String) : SplitKeyRecord p :=
  { index := idx,
    xpub := (genSplitKey deriveXpub m n seed coeffs passwords).xpub,
    m := m, n := n,
    seedShares := (genSplitKey deriveXpub m n seed coeffs passwords).seedShares }

/-- The full batch written by `handleSplitKeys` (`bgcl.js`):
`_.range(0, nkeys).map(index => ({ index, ...genSplitKey(input) }))`. -/
def splitKeysBatch {p : ℕ} (deriveXpub : ZMod p → ℕ) (m n nkeys : ℕ)
    (seeds : ℕ → ZMod p) (coeffss : ℕ → List (ZMod p)) (passwords : ℕ → String) :
    List (SplitKeyRecord p) :=
  (List.range nkeys).map
    (fun i => toolRecord deriveXpub i m n (seeds i) (coeffss i) passwords)

/-- Embedding of `UserInput.getIntVariable` (`bgcl.js`) with
`required = true`: accept the first prompted value inside `[lo, hi]`,
re-prompting (consuming further entries) on any out-of-range value. -/
def getIntVariable (lo hi : ℤ) : List ℤ → Option ℤ
  | [] => none
  | v :: rest => if lo ≤ v ∧ v ≤ hi then some v else getIntVariable lo hi rest

/-- Embedding of `UserInput.getVariable` (`bgcl.js`) with `required = true`:
the prompt insists on a non-empty entry but performs NO range validation;
extra arguments beyond `(name, question, required, defaultValue)` are
silently ignored by this function. -/
def getVariableRaw : List ℤ → Option ℤ
  | [] => none
  | v :: _ => some v

/-- The parameter-intake prefix of `handleSplitKeys` (`bgcl.js`): `n` via
`getIntVariable('n', ..., true, 1, 10)`, `m` via
`getIntVariable('m', ..., true, mMin, n)` with `mMin = 1` when `n == 1`
else `2`, then `nkeys` via `getVariable('nkeys', ..., true, 1, 100000)` —
which is `getVariable`, not `getIntVariable`, so `1` lands in the
`defaultValue` slot, `100000` is dropped, and `nkeys` is never
range-checked. -/
def handleSplitKeysParams (nEntries mEntries nkeysEntries : List ℤ) :
    Option (ℤ × ℤ × ℤ) :=
  (getIntVariable 1 10 nEntries).bind (fun n =>
    (getIntVariable (if n = 1 then 1 else 2) n mEntries).bind (fun m =>
      (getVariableRaw nkeysEntries).map (fun nkeys => (n, m, nkeys))))

/-- `handleSplitKeys` end to end: validate parameters, then generate and
write the batch (`_.range(0, nkeys)`; non-positive `nkeys` yields an empty
batch, still written to the output file). -/
def handleSplitKeysModel {p : ℕ} (deriveXpub : ZMod p → ℕ)
    (nEntries mEntries nkeysEntries : List ℤ) (seeds : ℕ → ZMod p)
    (coeffss : ℕ → List (ZMod p)) (passwords : ℕ → String) :
    Option (List (SplitKeyRecord p)) :=
  (handleSplitKeysParams nEntries mEntries nkeysEntries).map
    (fun t => splitKeysBatch deriveXpub t.2.1.toNat t.1.toNat t.2.2.toNat
      seeds coeffss passwords)

/-- The body of the `shares.forEach((share, shareIndex) => ...)` loop in
`handleRecoverKeys.getPassword` (`bgcl.js`): attempt
`sjcl.decrypt(password, share)`; on success, if no binding for that
`shareIndex` exists yet, push `(shareIndex, password)` and set `found`. -/
def tryPasswordStep {p : ℕ} (pw : String) (acc : List (ℕ × String) × Bool)
    (ic : ℕ × Ciphertext (SharePayload p)) : List (ℕ × String) × Bool :=
  match sjclDecrypt pw ic.2 with
  | some _ =>
    if acc.1.any (fun b => b.1 == ic.1) then acc
    else (acc.1 ++ [(ic.1, pw)], true)
  | none => acc

/-- One round of the trial-decryption loop in `handleRecoverKeys.getPassword`
(`bgcl.js`): run the `forEach` body over EVERY enumerated share, starting
from the current bindings with `found = false`. -/
def tryPassword {p : ℕ} (shares : List (Ciphertext (SharePayload p)))
    (bindings : List (ℕ × String)) (pw : String) : List (ℕ × String) × Bool :=
  shares.enum.foldl (tryPasswordStep pw) (bindings, false)

/-- The share bindings a single entered password adds in one `tryPassword`
round: one binding per share it decrypts whose index is not already bound. -/
def newBindings {p : ℕ} (shares : List (Ciphertext (SharePayload p)))
    (bindings : List (ℕ × String)) (pw : String) : List (ℕ × String) :=
  (shares.enum.filter
    (fun ic => (sjclDecrypt pw ic.2).isSome && !(bindings.any (fun b => b.1 == ic.1)))).map
    (fun ic => (ic.1, pw))

/-- The recursive password-collection loop `getPassword(i, n, shares)` of
`handleRecoverKeys` (`bgcl.js`), with the interactively entered passwords
modelled as a list: stop once the needed count is reached; otherwise
consume the next entry, and on `found` move to the next slot, else
re-prompt the same slot ("bad password - try again").  `none` models the
operator abandoning an endless re-prompt. -/
def collectPasswords {p : ℕ} (shares : List (Ciphertext (SharePayload p))) :
    List String → ℕ → List (ℕ × String) → Option (List (ℕ × String))
  | _, 0, bindings => some bindings
  | [], _ + 1, _ => none
  | pw :: rest, k + 1, bindings =>
    match tryPassword shares bindings pw with
    | (b2, true) => collectPasswords shares rest k b2
    | (b2, false) => collectPasswords shares rest (k + 1) b2

/-- The per-key share decryption of `handleRecoverKeys`:
`passwords.map(p => sjcl.decrypt(p.password, key.seedShares[p.shareIndex]))`;
an out-of-range index or a failed decryption is a thrown error (`none`). -/
def decryptShares {p : ℕ} (bindings : List (ℕ × String)) (key : SplitKeyRecord p) :
    Option (List (SharePayload p)) :=
  bindings.mapM (fun b => (key.seedShares.get? b.1).bind (fun c => sjclDecrypt b.2 c))

/-- Interpret a list of decrypted share payloads as `secrets.combine` input
points; a raw-seed payload in a list headed for `secrets.combine` is a
malformed share string (a thrown error in the library). -/
def asPoints {p : ℕ} : List (SharePayload p) → Option (List (ZMod p × ZMod p))
  | [] => some []
  | SharePayload.point x y :: rest => (asPoints rest).map (fun l => (x, y) :: l)
  | SharePayload.whole _ :: _ => none

/-- The seed-recombination step of `handleRecoverKeys` (`bgcl.js`):
`if (shares.length === 1) seed = shares[0]; else seed = secrets.combine(shares)`.
A singleton raw-seed share passes through unchanged (the `n == 1` case); a
singleton `secrets.js` point string passed through as a seed does not parse
back to any original seed (modelled as failure); longer lists go through
`secrets.combine`. -/
def codeRecombine {p : ℕ} : List (SharePayload p) → Option (ZMod p)
  | [SharePayload.whole v] => some v
  | [SharePayload.point _ _] => none
  | l => (asPoints l).map secretsCombine

/-- Decrypting every `seedShare` of one generated key with its own
corresponding password (share `i` with `params['password' + i]`). -/
def decryptOwnShares {p : ℕ} (r : GenKeyResult p) (passwords : ℕ → String) :
    Option (List (SharePayload p)) :=
  r.seedShares.enum.mapM (fun ic => sjclDecrypt (passwords ic.1) ic.2)

/-- The threshold recombination that inverts the split transform of
`genSplitKey`: the sole share of an unsplit (`n = 1`) key IS the seed;
split shares go through `secrets.combine`. -/
def thresholdRecombine {p : ℕ} : List (SharePayload p) → Option (ZMod p)
  | [SharePayload.whole v] => some v
  | l => (asPoints l).map secretsCombine

/-- Decidable equality of `Except` results, for evaluating the models on
concrete inputs. -/
instance exceptDecidableEq {ε α : Type} [DecidableEq ε] [DecidableEq α] :
    DecidableEq (Except ε α)
  | Except.error e1, Except.error e2 =>
    if h : e1 = e2 then isTrue (by rw [h])
    else isFalse (fun hc => h (Except.error.inj hc))
  | Except.error _, Except.ok _ => isFalse (fun hc => Except.noConfusion hc)
  | Except.ok _, Except.error _ => isFalse (fun hc => Except.noConfusion hc)
  | Except.ok a1, Except.ok a2 =>
    if h : a1 = a2 then isTrue (by rw [h])
    else isFalse (fun hc => h (Except.ok.inj hc))

/-- The errors `handleRecoverKeys` can throw per recovered key. -/
inductive RecoverError where
  | xpubMismatch (index : ℕ)
  | decryptFail
  | combineFail
  deriving DecidableEq

/-- One entry of the recovery output: `{ index, xpub, xprv? }`. -/
structure RecoveredKey where
  index : ℕ
  xpub : ℕ
  xprv : Option ℕ
  deriving DecidableEq

/-- The per-key body of `handleRecoverKeys` (`bgcl.js`): decrypt the shares
selected by the discovered bindings, recombine into a seed, derive the
extended key, and — only when NOT in verify-only mode — compare the derived
xpub with the record's stored xpub
(`if (!self.args.verifyonly && xpub !== key.xpub) throw ...`). -/
def recoverKey {p : ℕ} (deriveXpub deriveXprv : ZMod p → ℕ) (verifyonly : Bool)
    (bindings : List (ℕ × String)) (key : SplitKeyRecord p) :
    Except RecoverError RecoveredKey :=
  match decryptShares bindings key with
  | none => Except.error RecoverError.decryptFail
  | some shares =>
    match codeRecombine shares with
    | none => Except.error RecoverError.combineFail
    | some seed =>
      let xpub := deriveXpub seed
      let xprv := if verifyonly then none else some (deriveXprv seed)
      if verifyonly = false ∧ xpub ≠ key.xpub then
        Except.error (RecoverError.xpubMismatch key.index)
      else Except.ok { index := key.index, xpub := xpub, xprv := xprv }

/-- `handleRecoverKeys` (`bgcl.js`) after file loading and index selection:
collect `firstKey.m` passwords by trial decryption against the FIRST
selected key's shares, then recover every selected key with the discovered
bindings (the outer `Option` models the password prompt never completing). -/
def handleRecoverKeys {p : ℕ} (deriveXpub deriveXprv : ZMod p → ℕ)
    (verifyonly : Bool) (keysToRecover : List (SplitKeyRecord p))
    (entries : List String) : Option (Except RecoverError (List RecoveredKey)) :=
  match keysToRecover with
  | [] => none
  | k0 :: _ =>
    (collectPasswords k0.seedShares entries k0.m []).map
      (fun b => keysToRecover.mapM (recoverKey deriveXpub deriveXprv verifyonly b))

/-- The key selection of `handleRecoverKeys` (`bgcl.js`):
`keys.filter((key, index) => indices.indexOf(index) !== -1)` — selection by
ARRAY POSITION in the loaded file. -/
def selectByPosition {p : ℕ} (keys : List (SplitKeyRecord p)) (indices : List ℕ) :
    List (SplitKeyRecord p) :=
  (keys.enum.filter (fun ik => indices.contains ik.1)).map (fun ik => ik.2)

/-- Selection by the records' `index` FIELD, for comparison with
`selectByPosition` on files this tool produced. -/
def selectByIndexField {p : ℕ} (keys : List (SplitKeyRecord p)) (indices : List ℕ) :
    List (SplitKeyRecord p) :=
  keys.filter (fun k => indices.contains k.index)

/-- The coin types carrying a fee rate in `CrossChainRecoveryTool.feeRates`
(`recovery.js`). -/
inductive Chain where
  | btc
  | tbtc
  | bch
  | tbch
  deriving DecidableEq

/-- The per-chain fee-rate table set in the `CrossChainRecoveryTool`
constructor (`recovery.js`): satoshis per byte. -/
def feeRates : Chain → ℤ
  | Chain.bch => 20
  | Chain.tbch => 20
  | Chain.btc => 80
  | Chain.tbtc => 80

/-- An unspent output returned by the source-chain explorer
(`findUnspents`), with the fields `buildInputs` consumes: its address, its
satoshi value (`parseInt(unspent.value, 10)`), and whether it carries a
witness script. -/
structure Unspent where
  address : ℕ
  value : ℕ
  hasWitnessScript : Bool
  deriving DecidableEq

/-- A wallet-internal address record from `this.addresses.dest`, with the
coin-specific data `buildInputs` copies into its input entries. -/
structure WalletAddress where
  address : ℕ
  chain : ℕ
  index : ℕ
  redeemScript : ℕ
  witnessScript : ℕ
  deriving DecidableEq

/-- One entry of `txInfo.inputs`: `Object.assign({}, unspent, inputData)`,
where `inputData` carries the matched wallet-address record's scripts and
derivation data. -/
structure TxInput where
  unspent : Unspent
  addrRec : WalletAddress
  deriving DecidableEq

/-- One entry of `txInfo.outputs` / `txInfo.externalOutputs`
(`buildOutputs`). -/
structure OutputData where
  address : ℕ
  value : ℤ
  wallet : ℕ
  change : Bool
  deriving DecidableEq

/-- The `txInfo` audit record assembled by the builder pipeline
(`recovery.js`). -/
structure TxInfo where
  inputAmount : ℤ
  outputAmount : ℤ
  spendAmount : ℤ
  inputs : List TxInput
  outputs : List OutputData
  externalOutputs : List OutputData
  changeOutputs : List OutputData
  minerFee : ℤ
  payGoFee : ℤ
  deriving DecidableEq

/-- The fresh `txInfo` literal at the top of `buildInputs`. -/
def initTxInfo : TxInfo :=
  { inputAmount := 0, outputAmount := 0, spendAmount := 0, inputs := [],
    outputs := [], externalOutputs := [], changeOutputs := [], minerFee := 0,
    payGoFee := 0 }

/-- The errors thrown by the builder pipeline.  `noTxInfo` covers both the
explicit "Could not find transaction info" throw and the `TypeError` raised
by `setFees`/`buildOutputs` dereferencing an unset `this.txInfo`. -/
inductive BuildError where
  | missingUnspents
  | segwitUnspent
  | noTxInfo
  | cannotPayFees
  deriving DecidableEq

/-- The `for (const unspent of unspents)` loop of `buildInputs`
(`recovery.js`).  A segwit unspent in a bch-from-btc recovery throws; an
unspent whose address has no record in `this.addresses.dest` executes a
bare `return;` — so the WHOLE function returns `undefined` (`Except.ok
none`) and `this.txInfo` is never assigned; otherwise the unspent and its
matched record are appended and its value accumulated.  (The parallel
`recoveryTx.addInput` call of the external transaction builder adds one
transaction input per iteration, so the transaction's input count equals
`inputs.length`.) -/
def buildInputsLoop (dest : List WalletAddress) (noSegwit : Bool) :
    List Unspent → TxInfo → Except BuildError (Option TxInfo)
  | [], acc => Except.ok (some acc)
  | u :: rest, acc =>
    if u.hasWitnessScript && noSegwit then Except.error BuildError.segwitUnspent
    else
      match dest.find? (fun a => a.address == u.address) with
      | none => Except.ok none
      | some arec =>
        buildInputsLoop dest noSegwit rest
          { acc with
            inputs := acc.inputs ++ [{ unspent := u, addrRec := arec }],
            inputAmount := acc.inputAmount + (u.value : ℤ) }

/-- `CrossChainRecoveryTool.buildInputs` (`recovery.js`): throw when no
unspents were found, else run the loop on a fresh `txInfo`. -/
def buildInputs (dest : List WalletAddress) (noSegwit : Bool)
    (unspents : Option (List Unspent)) : Except BuildError (Option TxInfo) :=
  match unspents with
  | none => Except.error BuildError.missingUnspents
  | some us => buildInputsLoop dest noSegwit us initTxInfo

/-- `CrossChainRecoveryTool.setFees` (`recovery.js`): with
`P2SH_INPUT_SIZE = 295`, `OUTPUT_SIZE = 34`, `TX_OVERHEAD_SIZE = 10`,
record `minerFee = feeRate * (295 * ins + 34 + 10)` on `this.txInfo`; a
missing `this.txInfo` is a `TypeError`. -/
def setFees (chain : Chain) : Option TxInfo → Except BuildError TxInfo
  | none => Except.error BuildError.noTxInfo
  | some t =>
    Except.ok
      { t with minerFee := feeRates chain * (295 * (t.inputs.length : ℤ) + 34 + 10) }

/-- `CrossChainRecoveryTool.buildOutputs` (`recovery.js`): default the
output amount to `inputAmount - minerFee` (the explicit arguments use JS
truthiness, so an explicit `0` also falls back), record it, throw "This
recovery transaction cannot pay its own fees" when it is not positive, and
append the single external output. -/
def buildOutputs (recoveryAddress : ℕ) (srcWalletId : ℕ)
    (outputAmountArg recoveryFeeArg : Option ℤ) :
    Option TxInfo → Except BuildError TxInfo
  | none => Except.error BuildError.noTxInfo
  | some t =>
    let fee : ℤ :=
      match recoveryFeeArg with
      | some f => if f = 0 then t.minerFee else f
      | none => t.minerFee
    let outputAmount : ℤ :=
      match outputAmountArg with
      | some a => if a = 0 then t.inputAmount - fee else a
      | none => t.inputAmount - fee
    let t2 := { t with outputAmount := outputAmount, spendAmount := outputAmount }
    if outputAmount ≤ 0 then Except.error BuildError.cannotPayFees
    else
      let od : OutputData :=
        { address := recoveryAddress, value := outputAmount,
          wallet := srcWalletId, change := false }
      Except.ok
        { t2 with
          outputs := t2.outputs ++ [od],
          externalOutputs := t2.externalOutputs ++ [od] }

/-- `CrossChainRecoveryTool.buildTransaction` (`recovery.js`) from the
point the unspents are known: `buildInputs(); setFees(); buildOutputs(recoveryAddress)`
— no explicit output amount or fee is passed. -/
def buildTransaction (chain : Chain) (noSegwit : Bool)
    (dest : List WalletAddress) (srcWalletId : ℕ)
    (unspents : Option (List Unspent)) (recoveryAddress : ℕ) :
    Except BuildError TxInfo :=
  (buildInputs dest noSegwit unspents).bind (fun ti =>
    (setFees chain ti).bind (fun t1 =>
      buildOutputs recoveryAddress srcWalletId none none (some t1)))

/-! ### Mathematical support: the threshold scheme round-trips -/

/-- The Fermat-power inverse agrees with the field inverse on nonzero
elements of a prime field. -/
theorem fieldInv_eq {p : ℕ} [Fact p.Prime] {a : ZMod p} (ha : a ≠ 0) :
    fieldInv a = a⁻¹ := by
  have hp2 : 2 ≤ p := (Fact.out : p.Prime).two_le
  have h1 : a * a ^ (p - 2) = 1 := by
    rw [← pow_succ']
    rw [show p - 2 + 1 = p - 1 by omega]
    exact ZMod.pow_card_sub_one_eq_one ha
  exact (inv_eq_of_mul_eq_one_right h1).symm

/-- Evaluating the Lagrange interpolation identity at zero: for a
polynomial of degree below the number of nodes, the weighted sum of its
values recovers its constant term. -/
theorem lagrange_sum_eval_zero {p : ℕ} [Fact p.Prime] (s : Finset (ZMod p))
    (P : Polynomial (ZMod p)) (hdeg : P.degree < s.card) :
    ∑ x ∈ s, P.eval x * ∏ y ∈ s.erase x, y * (y - x)⁻¹ = P.eval 0 := by
  have hinj : Set.InjOn (id : ZMod p → ZMod p) s := fun a _ b _ h => h
  have hP := Lagrange.eq_interpolate hinj hdeg
  conv_rhs => rw [hP]
  rw [Lagrange.interpolate_apply, Polynomial.eval_finset_sum]
  refine Finset.sum_congr rfl (fun x _ => ?_)
  rw [Polynomial.eval_mul, Polynomial.eval_C, id_eq]
  congr 1
  simp only [Lagrange.basis, Polynomial.eval_prod, id_eq]
  refine Finset.prod_congr rfl (fun y _ => ?_)
  simp only [Lagrange.basisDivisor, Polynomial.eval_mul, Polynomial.eval_C,
    Polynomial.eval_sub, Polynomial.eval_X]
  rw [zero_sub, ← neg_sub y x, inv_neg]
  ring

/-- Filtering and mapping a pair list through functions of the first
component factors through the list of first components. -/
theorem filter_map_fst {α β γ : Type} (l : List (α × β)) (pred : α → Bool)
    (g : α → γ) :
    (l.filter (fun r => pred r.1)).map (fun r => g r.1)
      = ((l.map Prod.fst).filter pred).map g := by
  induction l with
  | nil => rfl
  | cons a t ih =>
    cases h : pred a.1 <;> simp [List.filter_cons, h, ih]

/-- Correctness of the Lagrange combination on share lists: if the points
have pairwise distinct evaluation points, lie on a polynomial `P`, and
there are more of them than `P`'s degree, then `secretsCombine` recovers
`P`'s constant term. -/
theorem secretsCombine_eq_eval_zero {p : ℕ} [Fact p.Prime]
    (P : Polynomial (ZMod p)) (pts : List (ZMod p × ZMod p))
    (hnd : (pts.map Prod.fst).Nodup)
    (hy : ∀ q ∈ pts, q.2 = P.eval q.1)
    (hdeg : P.degree < (pts.length : ℕ)) :
    secretsCombine pts = P.eval 0 := by
  classical
  have hcard : (pts.map Prod.fst).toFinset.card = pts.length := by
    rw [List.toFinset_card_of_nodup hnd, List.length_map]
  have hweight : ∀ q ∈ pts, lagWeight pts q
      = ∏ y ∈ (pts.map Prod.fst).toFinset.erase q.1, y * (y - q.1)⁻¹ := by
    intro q hq
    have hnd2 : ((pts.map Prod.fst).filter (fun x => decide (x ≠ q.1))).Nodup :=
      hnd.filter _
    rw [lagWeight,
      filter_map_fst pts (fun x => decide (x ≠ q.1))
        (fun x => x * fieldInv (x - q.1)),
      ← List.prod_toFinset _ hnd2, List.toFinset_filter]
    have hset : (pts.map Prod.fst).toFinset.filter (fun x => decide (x ≠ q.1))
        = (pts.map Prod.fst).toFinset.erase q.1 := by
      ext y
      simp [Finset.mem_filter, Finset.mem_erase, and_comm]
    rw [hset]
    refine Finset.prod_congr rfl (fun y hy2 => ?_)
    have hne : y ≠ q.1 := (Finset.mem_erase.mp hy2).1
    rw [fieldInv_eq (sub_ne_zero_of_ne hne)]
  have hmap : pts.map (fun q => q.2 * lagWeight pts q)
      = (pts.map Prod.fst).map
          (fun x => P.eval x * ∏ y ∈ (pts.map Prod.fst).toFinset.erase x, y * (y - x)⁻¹) := by
    rw [List.map_map]
    refine List.map_congr_left (fun q hq => ?_)
    simp only [Function.comp]
    rw [hy q hq, hweight q hq]
  rw [secretsCombine, hmap, ← List.sum_toFinset _ hnd]
  rw [lagrange_sum_eval_zero _ P (by rw [hcard]; exact hdeg)]

/-- Every coefficient list denotes a polynomial of degree below its length
with matching Horner evaluation. -/
theorem polyEval_has_poly {p : ℕ} (l : List (ZMod p)) :
    ∃ P : Polynomial (ZMod p), P.degree < (l.length : ℕ)
      ∧ ∀ x, P.eval x = polyEval l x := by
  induction l with
  | nil =>
    refine ⟨0, ?_, fun x => by simp [polyEval]⟩
    rw [Polynomial.degree_zero]
    exact WithBot.bot_lt_coe _
  | cons a t ih =>
    obtain ⟨Q, hdQ, hQ⟩ := ih
    refine ⟨Polynomial.C a + Polynomial.X * Q, ?_, fun x => by
      simp [polyEval, hQ]⟩
    rw [Polynomial.degree_lt_iff_coeff_zero] at hdQ ⊢
    intro m hm
    have hm1 : t.length + 1 ≤ m := by simpa using hm
    obtain ⟨k, rfl⟩ : ∃ k, m = k + 1 := ⟨m - 1, by omega⟩
    simp only [Polynomial.coeff_add, Polynomial.coeff_C, Polynomial.coeff_X_mul]
    rw [if_neg (by omega : ¬(k + 1 = 0)), zero_add]
    exact hdQ k (by omega)

/-- Horner evaluation at zero returns the constant coefficient. -/
theorem polyEval_cons_zero {p : ℕ} (a : ZMod p) (t : List (ZMod p)) :
    polyEval (a :: t) 0 = a := by
  simp [polyEval]

/-- The share coordinates are injective below the modulus. -/
theorem xcoord_inj {p : ℕ} {i j : ℕ} (hi : i + 1 < p) (hj : j + 1 < p)
    (h : xcoord p i = xcoord p j) : i = j := by
  unfold xcoord at h
  have hv := congrArg ZMod.val h
  rw [ZMod.val_cast_of_lt hi, ZMod.val_cast_of_lt hj] at hv
  omega

/-! ### Plumbing lemmas for the split/recover round-trip -/

/-- `mapM` over `Option` succeeds pointwise. -/
theorem mapM_option_eq_some {α β : Type} (l : List α) (f : α → Option β)
    (g : α → β) (h : ∀ a ∈ l, f a = some (g a)) : l.mapM f = some (l.map g) := by
  induction l with
  | nil => rfl
  | cons a t ih =>
    rw [List.mapM_cons, h a (List.mem_cons_self a t),
      ih (fun x hx => h x (List.mem_cons_of_mem a hx))]
    rfl

/-- Decrypting a position-indexed encryption of a list with the same
per-position passwords restores the list. -/
theorem decrypt_enc_enum {p : ℕ} (passwords : ℕ → String) :
    ∀ (l : List (SharePayload p)) (k : ℕ),
      (((l.enumFrom k).map (fun ish => sjclEncrypt (passwords ish.1) ish.2)).enumFrom k).mapM
        (fun ic => sjclDecrypt (passwords ic.1) ic.2) = some l := by
  intro l
  induction l with
  | nil => intro k; rfl
  | cons a t ih =>
    intro k
    simp only [List.enumFrom, List.map_cons, List.mapM_cons]
    rw [show sjclDecrypt (passwords k) (sjclEncrypt (passwords k) a) = some a by
      simp [sjclDecrypt, sjclEncrypt]]
    rw [ih (k + 1)]
    rfl

/-- Decrypting each share of a `genSplitKey` result with its own password
recovers the raw share list. -/
theorem decryptOwnShares_genSplitKey {p : ℕ} (deriveXpub : ZMod p → ℕ)
    (m n : ℕ) (seed : ZMod p) (coeffs : List (ZMod p)) (passwords : ℕ → String) :
    decryptOwnShares (genSplitKey deriveXpub m n seed coeffs passwords) passwords
      = some (rawShares seed coeffs n) :=
  decrypt_enc_enum passwords (rawShares seed coeffs n) 0

/-- The raw share at index `i` of a genuinely split key (`n ≠ 1`). -/
theorem rawShares_get_point {p : ℕ} (seed : ZMod p) (coeffs : List (ZMod p))
    {n i : ℕ} (hn : n ≠ 1) (hi : i < n) :
    (rawShares seed coeffs n).get? i
      = some (SharePayload.point (xcoord p i) (polyEval (seed :: coeffs) (xcoord p i))) := by
  rw [rawShares, if_neg hn, secretsShare]
  simp [List.get?_eq_getElem?, List.getElem?_map, List.getElem?_range, hi]

/-- `asPoints` inverts the point-payload injection. -/
theorem asPoints_map_point {p : ℕ} (pts : List (ZMod p × ZMod p)) :
    asPoints (pts.map (fun q => SharePayload.point q.1 q.2)) = some pts := by
  induction pts with
  | nil => rfl
  | cons a t ih => simp [asPoints, ih]

/-- `thresholdRecombine` on a list headed by a point payload takes the
`secrets.combine` branch. -/
theorem thresholdRecombine_point_cons {p : ℕ} (x y : ZMod p)
    (rest : List (SharePayload p)) :
    thresholdRecombine (SharePayload.point x y :: rest)
      = (asPoints (SharePayload.point x y :: rest)).map secretsCombine := rfl

/-- `thresholdRecombine` on nonempty point payloads is `secretsCombine`. -/
theorem thresholdRecombine_map_point {p : ℕ} (pts : List (ZMod p × ZMod p))
    (hne : pts ≠ []) :
    thresholdRecombine (pts.map (fun q => SharePayload.point q.1 q.2))
      = some (secretsCombine pts) := by
  obtain ⟨a, t, rfl⟩ := List.exists_cons_of_ne_nil hne
  rw [List.map_cons, thresholdRecombine_point_cons]
  have hpts : asPoints
      (SharePayload.point a.1 a.2 :: t.map (fun q => SharePayload.point q.1 q.2))
      = some (a :: t) := by
    simpa [List.map_cons] using asPoints_map_point (a :: t)
  rw [hpts]
  rfl

/-- Combining the share points of any selection of distinct share indices
of size `m` recovers the seed. -/
theorem secretsCombine_sel_eq_seed {p : ℕ} [Fact p.Prime] (hp : 10 < p)
    (m n : ℕ) (h1 : 1 ≤ m) (h3 : n ≤ 10)
    (seed : ZMod p) (coeffs : List (ZMod p)) (hc : coeffs.length = m - 1)
    (sel : List ℕ) (hnd : sel.Nodup) (hlt : ∀ i ∈ sel, i < n)
    (hlen : sel.length = m) :
    secretsCombine (sel.map (fun i => (xcoord p i, polyEval (seed :: coeffs) (xcoord p i))))
      = seed := by
  obtain ⟨P, hdP, hP⟩ := polyEval_has_poly (seed :: coeffs)
  have hfst : (sel.map (fun i => (xcoord p i, polyEval (seed :: coeffs) (xcoord p i)))).map Prod.fst
      = sel.map (fun i => xcoord p i) := by
    rw [List.map_map]
    rfl
  have hnd2 : ((sel.map (fun i => (xcoord p i, polyEval (seed :: coeffs) (xcoord p i)))).map Prod.fst).Nodup := by
    rw [hfst]
    refine List.Nodup.map_on ?_ hnd
    intro x hx y hy hxy
    exact xcoord_inj (by have := hlt x hx; omega) (by have := hlt y hy; omega) hxy
  have hy2 : ∀ q ∈ sel.map (fun i => (xcoord p i, polyEval (seed :: coeffs) (xcoord p i))),
      q.2 = P.eval q.1 := by
    intro q hq
    obtain ⟨i, hi, rfl⟩ := List.mem_map.mp hq
    exact (hP (xcoord p i)).symm
  have hdeg2 : P.degree
      < ((sel.map (fun i => (xcoord p i, polyEval (seed :: coeffs) (xcoord p i)))).length : ℕ) := by
    rw [List.length_map, hlen]
    have hl : (seed :: coeffs).length = m := by
      rw [List.length_cons, hc]
      omega
    rw [hl] at hdP
    exact hdP
  rw [secretsCombine_eq_eval_zero P _ hnd2 hy2 hdeg2, hP 0, polyEval_cons_zero]

/-! ### Claim C2 -/

/-- C2: for all valid `(m, n)` with `1 ≤ m ≤ n ≤ 10` and every key produced
by `genSplitKey`, decrypting each seed share with its corresponding
password and recombining any `m`-element subset of the decrypted shares
(via the threshold combine that inverts the split) yields exactly the
original seed of that key. -/
theorem c2_split_recombine_roundtrip {p : ℕ} [Fact p.Prime] (hp : 10 < p)
    (deriveXpub : ZMod p → ℕ) (m n : ℕ) (h1 : 1 ≤ m) (h2 : m ≤ n) (h3 : n ≤ 10)
    (seed : ZMod p) (coeffs : List (ZMod p)) (hc : coeffs.length = m - 1)
    (passwords : ℕ → String) (sel : List ℕ) (hnd : sel.Nodup)
    (hlt : ∀ i ∈ sel, i < n) (hlen : sel.length = m) :
    (decryptOwnShares (genSplitKey deriveXpub m n seed coeffs passwords) passwords).bind
      (fun all => (sel.mapM (fun i => all.get? i)).bind thresholdRecombine)
      = some seed := by
  rw [decryptOwnShares_genSplitKey]
  show (sel.mapM (fun i => (rawShares seed coeffs n).get? i)).bind thresholdRecombine
      = some seed
  by_cases hn1 : n = 1
  · subst hn1
    obtain ⟨i, rest, rfl⟩ : ∃ i rest, sel = i :: rest := by
      cases sel with
      | nil =>
        simp only [List.length_nil] at hlen
        omega
      | cons i rest => exact ⟨i, rest, rfl⟩
    have hi0 : i = 0 := by
      have := hlt i (List.mem_cons_self i rest)
      omega
    subst hi0
    have hrest : rest = [] := by
      cases rest with
      | nil => rfl
      | cons j r2 =>
        have hm1 : m = 1 := by omega
        rw [hm1] at hlen
        simp only [List.length_cons] at hlen
        omega
    subst hrest
    rfl
  · rw [mapM_option_eq_some sel _
      (fun i => SharePayload.point (xcoord p i) (polyEval (seed :: coeffs) (xcoord p i)))
      (fun i hi => rawShares_get_point seed coeffs hn1 (hlt i hi))]
    show thresholdRecombine
      (sel.map (fun i => SharePayload.point (xcoord p i) (polyEval (seed :: coeffs) (xcoord p i))))
      = some seed
    have hmapeq : sel.map
        (fun i => SharePayload.point (xcoord p i) (polyEval (seed :: coeffs) (xcoord p i)))
        = (sel.map (fun i => (xcoord p i, polyEval (seed :: coeffs) (xcoord p i)))).map
            (fun q => SharePayload.point q.1 q.2) := by
      rw [List.map_map]
      rfl
    rw [hmapeq]
    have hselne : sel ≠ [] := by
      intro h
      rw [h] at hlen
      simp only [List.length_nil] at hlen
      omega
    have hptsne : sel.map (fun i => (xcoord p i, polyEval (seed :: coeffs) (xcoord p i))) ≠ [] := by
      simpa using hselne
    rw [thresholdRecombine_map_point _ hptsne,
      secretsCombine_sel_eq_seed hp m n h1 h3 seed coeffs hc sel hnd hlt hlen]

/-- Witness for C2: a 2-of-3 split of the seed `7` over `ZMod 11`,
recombined from shares 1 and 2 only (share 0 skipped entirely, as in the
spec's example). -/
theorem c2_witness :
    (decryptOwnShares
        (genSplitKey (fun s : ZMod 11 => s.val) 2 3 7 [3] (fun i => toString i))
        (fun i => toString i)).bind
      (fun all => (([1, 2] : List ℕ).mapM (fun i => all.get? i)).bind thresholdRecombine)
      = some 7 := by
  haveI : Fact (Nat.Prime 11) := ⟨by norm_num⟩
  exact c2_split_recombine_roundtrip (by norm_num) (fun s => s.val) 2 3
    (by norm_num) (by norm_num) (by norm_num) 7 [3] (by decide)
    (fun i => toString i) [1, 2] (by decide) (by decide) (by decide)

/-! ### The trial-decryption password loop -/

/-- A fold over entries none of which decrypt leaves the state unchanged. -/
theorem foldl_tryPasswordStep_none {p : ℕ} (pw : String) :
    ∀ (l : List (ℕ × Ciphertext (SharePayload p))) (acc : List (ℕ × String) × Bool),
      (∀ ic ∈ l, sjclDecrypt pw ic.2 = none) →
      l.foldl (tryPasswordStep pw) acc = acc := by
  intro l
  induction l with
  | nil => intro acc _; rfl
  | cons a t ih =>
    intro acc h
    rw [List.foldl_cons]
    rw [show tryPasswordStep pw acc a = acc by
      unfold tryPasswordStep
      rw [h a (List.mem_cons_self a t)]]
    exact ih acc (fun ic hic => h ic (List.mem_cons_of_mem a hic))

/-- Folding the trial-decryption step over shares enumerated from `k`, when
exactly the share with global index `j` decrypts and `j` is unbound, adds
the single binding `(j, pw)` and reports success. -/
theorem foldl_tryPasswordStep_hit {p : ℕ} (pw : String) :
    ∀ (cs : List (Ciphertext (SharePayload p))) (k : ℕ) (b : List (ℕ × String)) (j : ℕ),
      k ≤ j → j < k + cs.length →
      (∀ i c, cs.get? i = some c → ((sjclDecrypt pw c).isSome = true ↔ k + i = j)) →
      b.any (fun x => x.1 == j) = false →
      (cs.enumFrom k).foldl (tryPasswordStep pw) (b, false) = (b ++ [(j, pw)], true) := by
  intro cs
  induction cs with
  | nil =>
    intro k b j hkj hjlt _ _
    simp only [List.length_nil] at hjlt
    omega
  | cons c t ih =>
    intro k b j hkj hjlt h hb
    simp only [List.enumFrom, List.foldl_cons]
    by_cases hkeq : k = j
    · subst hkeq
      obtain ⟨a, ha⟩ : ∃ a, sjclDecrypt pw c = some a := by
        have h0 := (h 0 c rfl).mpr (by omega)
        exact Option.isSome_iff_exists.mp h0
      have hstep : tryPasswordStep pw (b, false) (k, c) = (b ++ [(k, pw)], true) := by
        unfold tryPasswordStep
        rw [ha]
        simp only [hb]
        rfl
      rw [hstep]
      refine foldl_tryPasswordStep_none pw _ _ ?_
      intro ic hic
      obtain ⟨m, hm⟩ := List.get_of_mem hic
      have hm2 : (t.enumFrom (k + 1)).get? m = some ic := by
        rw [List.get?_eq_get m.2, hm]
      rw [List.get?_enumFrom] at hm2
      obtain ⟨a2, ha2, hic2⟩ := Option.map_eq_some'.mp hm2
      have := h (m.1 + 1) a2 (by simpa using ha2)
      have hnone : (sjclDecrypt pw a2).isSome = false := by
        rcases Bool.eq_false_or_eq_true ((sjclDecrypt pw a2).isSome) with ht | hf
        · exact absurd (this.mp ht) (by omega)
        · exact hf
      rw [← hic2]
      exact Option.not_isSome_iff_eq_none.mp (by rw [hnone]; exact Bool.false_ne_true)
    · have hnone : sjclDecrypt pw c = none := by
        have h0 := h 0 c rfl
        refine Option.not_isSome_iff_eq_none.mp ?_
        intro hs
        exact absurd (h0.mp hs) (by omega)
      have hstep : tryPasswordStep pw (b, false) (k, c) = (b, false) := by
        unfold tryPasswordStep
        rw [hnone]
      rw [hstep]
      refine ih (k + 1) b j (by omega) ?_ ?_ hb
      · simp only [List.length_cons] at hjlt
        omega
      · intro i c2 hc2
        exact (h (i + 1) c2 (by simpa using hc2)).trans (by omega)

/-- `tryPassword` when exactly the share at index `j` decrypts with the
entered password and `j` is not yet bound: the password is bound to `j` and
the round succeeds. -/
theorem tryPassword_unique_hit {p : ℕ} (shares : List (Ciphertext (SharePayload p)))
    (b : List (ℕ × String)) (pw : String) (j : ℕ) (hj : j < shares.length)
    (h : ∀ i c, shares.get? i = some c → ((sjclDecrypt pw c).isSome = true ↔ i = j))
    (hb : b.any (fun x => x.1 == j) = false) :
    tryPassword shares b pw = (b ++ [(j, pw)], true) := by
  unfold tryPassword
  exact foldl_tryPasswordStep_hit pw shares 0 b j (Nat.zero_le j) (by omega)
    (fun i c hc => (h i c hc).trans (by omega)) hb

/-- On a share list encrypted with passwords that are injective across
share indices, the entered password `passwords j` decrypts exactly share
`j`, so `tryPassword` binds it there. -/
theorem tryPassword_enc {p : ℕ} (passwords : ℕ → String) (l : List (SharePayload p))
    (hinj : ∀ i < l.length, ∀ j < l.length, passwords i = passwords j → i = j)
    (j : ℕ) (hj : j < l.length) (b : List (ℕ × String))
    (hb : b.any (fun x => x.1 == j) = false) :
    tryPassword (l.enum.map (fun ish => sjclEncrypt (passwords ish.1) ish.2)) b (passwords j)
      = (b ++ [(j, passwords j)], true) := by
  refine tryPassword_unique_hit _ b (passwords j) j (by simpa using hj) ?_ hb
  intro i c hc
  have hmap : (l.enum.map (fun ish => sjclEncrypt (passwords ish.1) ish.2)).get? i
      = (l.get? i).map (fun a => sjclEncrypt (passwords i) a) := by
    rw [List.get?_map, List.get?_enum, Option.map_map]
    rfl
  rw [hmap] at hc
  obtain ⟨a, ha1, hc2⟩ := Option.map_eq_some'.mp hc
  have hi : i < l.length := by
    rcases List.get?_eq_some.mp ha1 with ⟨hlt, _⟩
    exact hlt
  subst hc2
  by_cases hpw : passwords i = passwords j
  · simp only [sjclDecrypt, sjclEncrypt, hpw, if_pos, Option.isSome_some, true_iff]
    exact hinj i hi j hj hpw
  · simp only [sjclDecrypt, sjclEncrypt, if_neg hpw, Option.isSome_none,
      Bool.false_eq_true, false_iff]
    intro he
    exact hpw (he ▸ rfl)

/-- Entering the passwords of distinct share indices in any order collects
exactly the corresponding bindings, in entry order. -/
theorem collectPasswords_enc {p : ℕ} (passwords : ℕ → String) (l : List (SharePayload p))
    (hinj : ∀ i < l.length, ∀ j < l.length, passwords i = passwords j → i = j) :
    ∀ (perm : List ℕ) (b : List (ℕ × String)),
      perm.Nodup → (∀ i ∈ perm, i < l.length) →
      (∀ i ∈ perm, b.any (fun x => x.1 == i) = false) →
      collectPasswords (l.enum.map (fun ish => sjclEncrypt (passwords ish.1) ish.2))
        (perm.map passwords) perm.length b
        = some (b ++ perm.map (fun i => (i, passwords i))) := by
  intro perm
  induction perm with
  | nil =>
    intro b _ _ _
    simp [collectPasswords]
  | cons i rest ih =>
    intro b hnd hlt hb
    simp only [List.map_cons, List.length_cons]
    have htp := tryPassword_enc passwords l hinj i
      (hlt i (List.mem_cons_self i rest)) b (hb i (List.mem_cons_self i rest))
    simp only [collectPasswords]
    rw [htp]
    have hnd' : rest.Nodup := (List.nodup_cons.mp hnd).2
    have hlt' : ∀ x ∈ rest, x < l.length :=
      fun x hx => hlt x (List.mem_cons_of_mem i hx)
    have hb' : ∀ x ∈ rest, (b ++ [(i, passwords i)]).any (fun y => y.1 == x) = false := by
      intro x hx
      rw [List.any_append, hb x (List.mem_cons_of_mem i hx)]
      simp only [List.any_cons, List.any_nil, Bool.or_false, Bool.false_or]
      have hne : i ≠ x := fun he => (List.nodup_cons.mp hnd).1 (he ▸ hx)
      simp [hne]
    exact (ih (b ++ [(i, passwords i)]) hnd' hlt' hb').trans
      (by rw [List.append_assoc]; rfl)

/-! ### Claim C6 -/

/-- The share list always has `n` entries. -/
theorem rawShares_length {p : ℕ} (seed : ZMod p) (coeffs : List (ZMod p))
    (n : ℕ) : (rawShares seed coeffs n).length = n := by
  rw [rawShares]
  by_cases h : n = 1
  · rw [if_pos h, h]
    rfl
  · rw [if_neg h]
    simp [secretsShare]

/-- In-range `get?` returns the `getD` value. -/
theorem get?_eq_some_getD {α : Type} (l : List α) (d : α) {i : ℕ}
    (hi : i < l.length) : l.get? i = some (l.getD i d) := by
  rw [List.getD_eq_getElem?_getD, List.get?_eq_getElem?]
  cases h : l[i]? with
  | none =>
    rw [List.getElem?_eq_none_iff] at h
    omega
  | some a => rfl

/-- Indexing into the per-position encryption of a list. -/
theorem encShares_get? {p : ℕ} (passwords : ℕ → String)
    (l : List (SharePayload p)) (i : ℕ) :
    (l.enum.map (fun ish => sjclEncrypt (passwords ish.1) ish.2)).get? i
      = (l.get? i).map (fun a => sjclEncrypt (passwords i) a) := by
  rw [List.get?_map, List.get?_enum, Option.map_map]
  rfl

/-- `codeRecombine` on two or more shares takes the `secrets.combine`
branch. -/
theorem codeRecombine_cons2 {p : ℕ} (s1 s2 : SharePayload p)
    (t : List (SharePayload p)) :
    codeRecombine (s1 :: s2 :: t) = (asPoints (s1 :: s2 :: t)).map secretsCombine := by
  cases s1 <;> rfl

/-- C6: for every key with `m` shares required, supplying the `m` correct
passwords for its shares in any order during `handleRecoverKeys` yields a
successful recovery whose result — in particular the final `xprv` — does
not depend on the entry order. -/
theorem c6_password_order_independent {p : ℕ} [Fact p.Prime] (hp : 10 < p)
    (deriveXpub deriveXprv : ZMod p → ℕ) (verifyonly : Bool) (idx m n : ℕ)
    (h1 : 1 ≤ m) (h2 : m ≤ n) (h3 : n ≤ 10) (hm2 : n = 1 ∨ 2 ≤ m)
    (seed : ZMod p) (coeffs : List (ZMod p)) (hc : coeffs.length = m - 1)
    (passwords : ℕ → String)
    (hinj : ∀ i < n, ∀ j < n, passwords i = passwords j → i = j)
    (perm : List ℕ) (hnd : perm.Nodup) (hlt : ∀ i ∈ perm, i < n)
    (hlen : perm.length = m) :
    handleRecoverKeys deriveXpub deriveXprv verifyonly
      [toolRecord deriveXpub idx m n seed coeffs passwords] (perm.map passwords)
      = some (Except.ok
        [{ index := idx, xpub := deriveXpub seed, xprv := if verifyonly then none else some (deriveXprv seed) }]) := by
  have hLlen : (rawShares seed coeffs n).length = n := rawShares_length seed coeffs n
  have hinj' : ∀ i < (rawShares seed coeffs n).length,
      ∀ j < (rawShares seed coeffs n).length, passwords i = passwords j → i = j := by
    rw [hLlen]
    exact hinj
  have hcol := collectPasswords_enc passwords (rawShares seed coeffs n) hinj' perm []
    hnd (fun i hi => by rw [hLlen]; exact hlt i hi) (fun i _ => rfl)
  rw [hlen, List.nil_append] at hcol
  have hpt : ∀ b ∈ perm.map (fun i => (i, passwords i)),
      ((toolRecord deriveXpub idx m n seed coeffs passwords).seedShares.get? b.1).bind
        (fun c => sjclDecrypt b.2 c)
      = some ((rawShares seed coeffs n).getD b.1 (SharePayload.whole 0)) := by
    intro b hb
    obtain ⟨i, hi, rfl⟩ := List.mem_map.mp hb
    have hgl : (rawShares seed coeffs n).get? i
        = some ((rawShares seed coeffs n).getD i (SharePayload.whole 0)) :=
      get?_eq_some_getD _ _ (by rw [hLlen]; exact hlt i hi)
    rw [show (toolRecord deriveXpub idx m n seed coeffs passwords).seedShares
        = (rawShares seed coeffs n).enum.map (fun ish => sjclEncrypt (passwords ish.1) ish.2)
        from rfl,
      encShares_get?, hgl]
    simp [sjclDecrypt, sjclEncrypt]
  have hdec : decryptShares (perm.map (fun i => (i, passwords i)))
      (toolRecord deriveXpub idx m n seed coeffs passwords)
      = some (perm.map (fun i => (rawShares seed coeffs n).getD i (SharePayload.whole 0))) := by
    rw [decryptShares,
      mapM_option_eq_some (perm.map (fun i => (i, passwords i))) _
        (fun b => (rawShares seed coeffs n).getD b.1 (SharePayload.whole 0)) hpt,
      List.map_map]
    rfl
  have hcr : codeRecombine
      (perm.map (fun i => (rawShares seed coeffs n).getD i (SharePayload.whole 0)))
      = some seed := by
    rcases hm2 with hn1 | hm2'
    · subst hn1
      obtain ⟨i, rest, rfl⟩ : ∃ i rest, perm = i :: rest := by
        cases perm with
        | nil =>
          simp only [List.length_nil] at hlen
          omega
        | cons i rest => exact ⟨i, rest, rfl⟩
      have hi0 : i = 0 := by
        have := hlt i (List.mem_cons_self i rest)
        omega
      subst hi0
      have hrest : rest = [] := by
        cases rest with
        | nil => rfl
        | cons j r2 =>
          have hm1 : m = 1 := by omega
          rw [hm1] at hlen
          simp only [List.length_cons] at hlen
          omega
      subst hrest
      rfl
    · have hn1' : n ≠ 1 := by omega
      have hgetD : ∀ i ∈ perm, (rawShares seed coeffs n).getD i (SharePayload.whole 0)
          = SharePayload.point (xcoord p i) (polyEval (seed :: coeffs) (xcoord p i)) := by
        intro i hi
        have hx1 : (rawShares seed coeffs n).get? i
            = some ((rawShares seed coeffs n).getD i (SharePayload.whole 0)) :=
          get?_eq_some_getD _ _ (by rw [hLlen]; exact hlt i hi)
        have hx2 := rawShares_get_point seed coeffs hn1' (hlt i hi)
        rw [hx1] at hx2
        exact Option.some.inj hx2
      rw [List.map_congr_left hgetD]
      obtain ⟨i1, r1, rfl⟩ : ∃ i1 r1, perm = i1 :: r1 := by
        cases perm with
        | nil =>
          simp only [List.length_nil] at hlen
          omega
        | cons i1 r1 => exact ⟨i1, r1, rfl⟩
      obtain ⟨i2, r2, rfl⟩ : ∃ i2 r2, r1 = i2 :: r2 := by
        cases r1 with
        | nil =>
          simp only [List.length_cons, List.length_nil] at hlen
          omega
        | cons i2 r2 => exact ⟨i2, r2, rfl⟩
      simp only [List.map_cons]
      rw [codeRecombine_cons2]
      have hap : asPoints
          (SharePayload.point (xcoord p i1) (polyEval (seed :: coeffs) (xcoord p i1))
            :: SharePayload.point (xcoord p i2) (polyEval (seed :: coeffs) (xcoord p i2))
            :: r2.map (fun i => SharePayload.point (xcoord p i) (polyEval (seed :: coeffs) (xcoord p i))))
          = some ((i1 :: i2 :: r2).map
              (fun i => (xcoord p i, polyEval (seed :: coeffs) (xcoord p i)))) := by
        simpa [List.map_map] using asPoints_map_point
          ((i1 :: i2 :: r2).map (fun i => (xcoord p i, polyEval (seed :: coeffs) (xcoord p i))))
      rw [hap]
      rw [show Option.map secretsCombine (some ((i1 :: i2 :: r2).map
          (fun i => (xcoord p i, polyEval (seed :: coeffs) (xcoord p i)))))
        = some (secretsCombine ((i1 :: i2 :: r2).map
          (fun i => (xcoord p i, polyEval (seed :: coeffs) (xcoord p i))))) from rfl]
      rw [secretsCombine_sel_eq_seed hp m n h1 h3 seed coeffs hc _ hnd hlt hlen]
  have hrec : recoverKey deriveXpub deriveXprv verifyonly
      (perm.map (fun i => (i, passwords i)))
      (toolRecord deriveXpub idx m n seed coeffs passwords)
      = Except.ok { index := idx, xpub := deriveXpub seed, xprv := if verifyonly then none else some (deriveXprv seed) } := by
    simp only [recoverKey, hdec, hcr]
    have hcond : ¬(verifyonly = false
        ∧ deriveXpub seed ≠ (toolRecord deriveXpub idx m n seed coeffs passwords).xpub) := by
      rintro ⟨-, hne⟩
      exact hne rfl
    rw [if_neg hcond]
    rfl
  show (collectPasswords
      (toolRecord deriveXpub idx m n seed coeffs passwords).seedShares
      (perm.map passwords)
      (toolRecord deriveXpub idx m n seed coeffs passwords).m []).map
      (fun b => [toolRecord deriveXpub idx m n seed coeffs passwords].mapM
        (recoverKey deriveXpub deriveXprv verifyonly b))
      = some (Except.ok
        [{ index := idx, xpub := deriveXpub seed, xprv := if verifyonly then none else some (deriveXprv seed) }])
  rw [show (toolRecord deriveXpub idx m n seed coeffs passwords).seedShares
      = (rawShares seed coeffs n).enum.map (fun ish => sjclEncrypt (passwords ish.1) ish.2)
      from rfl,
    show (toolRecord deriveXpub idx m n seed coeffs passwords).m = m from rfl,
    hcol]
  simp only [Option.map_some', List.mapM, List.mapM.loop, hrec]
  rfl

/-- Witness for C6: a 2-of-3 key with passwords "0", "1", "2"; entering
password "1" then "0" yields exactly the same successful recovery (same
`xprv`) as entering "0" then "1". -/
theorem c6_witness :
    handleRecoverKeys (fun s : ZMod 11 => s.val) (fun s => s.val + 100) false
        [toolRecord (fun s : ZMod 11 => s.val) 0 2 3 7 [3] (fun i => toString i)]
        ([1, 0].map (fun i => toString i))
      = some (Except.ok [{ index := 0, xpub := (7 : ZMod 11).val, xprv := some ((7 : ZMod 11).val + 100) }])
    ∧ handleRecoverKeys (fun s : ZMod 11 => s.val) (fun s => s.val + 100) false
        [toolRecord (fun s : ZMod 11 => s.val) 0 2 3 7 [3] (fun i => toString i)]
        ([0, 1].map (fun i => toString i))
      = some (Except.ok [{ index := 0, xpub := (7 : ZMod 11).val, xprv := some ((7 : ZMod 11).val + 100) }]) := by
  haveI : Fact (Nat.Prime 11) := ⟨by norm_num⟩
  constructor
  · exact c6_password_order_independent (by norm_num) (fun s => s.val)
      (fun s => s.val + 100) false 0 2 3 (by norm_num) (by norm_num)
      (by norm_num) (Or.inr (by norm_num)) 7 [3] (by decide)
      (fun i => toString i) (by decide) [1, 0] (by decide) (by decide) (by decide)
  · exact c6_password_order_independent (by norm_num) (fun s => s.val)
      (fun s => s.val + 100) false 0 2 3 (by norm_num) (by norm_num)
      (by norm_num) (Or.inr (by norm_num)) 7 [3] (by decide)
      (fun i => toString i) (by decide) [0, 1] (by decide) (by decide) (by decide)

/-! ### Claim C1 -/

/-- C1 (code evaluation): on a record whose stored xpub (5) differs from
the xpub derived from the reconstructed seed (3), normal recovery mode
throws the hard error naming the key index, but verify-only mode — whose
own help text says it verifies xpubs — silently reports success with the
derived xpub, because the code guards the comparison with
`!self.args.verifyonly`. -/
theorem c1_verifyonly_skips_xpub_check :
    handleRecoverKeys (fun s : ZMod 11 => s.val) (fun s => s.val) true
        [{ index := 7, xpub := 5, m := 1, n := 1, seedShares := [sjclEncrypt "pw" (SharePayload.whole 3)] }]
        ["pw"]
      = some (Except.ok [{ index := 7, xpub := 3, xprv := none }])
    ∧ handleRecoverKeys (fun s : ZMod 11 => s.val) (fun s => s.val) false
        [{ index := 7, xpub := 5, m := 1, n := 1, seedShares := [sjclEncrypt "pw" (SharePayload.whole 3)] }]
        ["pw"]
      = some (Except.error (RecoverError.xpubMismatch 7))
    ∧ (3 : ℕ) ≠ 5 := by
  decide

/-! ### Claim C7 -/

/-- C7 (counterexample): when two shares are encrypted with the SAME
password — which `handleSplitKeys` permits — a single entered password is
bound to BOTH share indices in one trial-decryption round, refuting "each
newly entered password is bound to at most one share index" and "only
until the first successful decryption". -/
theorem c7_counterexample :
    tryPassword
        [sjclEncrypt "a" (SharePayload.whole (1 : ZMod 11)),
          sjclEncrypt "a" (SharePayload.whole 2)] [] "a"
      = ([(0, "a"), (1, "a")], true) := by
  decide

/-- The trial-decryption fold appends one binding per decryptable share
whose index is unbound in the starting bindings. -/
theorem foldl_tryPasswordStep_general {p : ℕ} (pw : String)
    (b : List (ℕ × String)) :
    ∀ (el : List (ℕ × Ciphertext (SharePayload p))) (A : List (ℕ × String)) (f : Bool),
      (el.map Prod.fst).Nodup →
      (∀ x ∈ A, ∀ ic ∈ el, x.1 ≠ ic.1) →
      el.foldl (tryPasswordStep pw) (b ++ A, f)
        = (b ++ A ++ (el.filter
              (fun ic => (sjclDecrypt pw ic.2).isSome && !(b.any (fun y => y.1 == ic.1)))).map
              (fun ic => (ic.1, pw)),
           f || !((el.filter
              (fun ic => (sjclDecrypt pw ic.2).isSome && !(b.any (fun y => y.1 == ic.1)))).isEmpty)) := by
  intro el
  induction el with
  | nil =>
    intro A f _ _
    simp
  | cons ic t ih =>
    intro A f hnd hdisj
    have hndt : (t.map Prod.fst).Nodup := (List.nodup_cons.mp (by simpa using hnd)).2
    rw [List.foldl_cons]
    cases hdec : sjclDecrypt pw ic.2 with
    | none =>
      have hstep : tryPasswordStep pw (b ++ A, f) ic = (b ++ A, f) := by
        unfold tryPasswordStep
        rw [hdec]
      rw [hstep, List.filter_cons, show ((sjclDecrypt pw ic.2).isSome
          && !(b.any (fun y => y.1 == ic.1))) = false by rw [hdec]; rfl]
      exact ih A f hndt (fun x hx ic2 hic2 => hdisj x hx ic2 (List.mem_cons_of_mem ic hic2))
    | some a =>
      cases hbany : b.any (fun y => y.1 == ic.1) with
      | true =>
        have hstep : tryPasswordStep pw (b ++ A, f) ic = (b ++ A, f) := by
          unfold tryPasswordStep
          rw [hdec]
          have : (b ++ A).any (fun y => y.1 == ic.1) = true := by
            rw [List.any_append, hbany]
            rfl
          rw [if_pos this]
        rw [hstep, List.filter_cons, show ((sjclDecrypt pw ic.2).isSome
            && !(b.any (fun y => y.1 == ic.1))) = false by rw [hdec, hbany]; rfl]
        exact ih A f hndt (fun x hx ic2 hic2 => hdisj x hx ic2 (List.mem_cons_of_mem ic hic2))
      | false =>
        have hAany : A.any (fun y => y.1 == ic.1) = false := by
          rw [List.any_eq_false]
          intro x hx
          have := hdisj x hx ic (List.mem_cons_self ic t)
          simpa using this
        have hstep : tryPasswordStep pw (b ++ A, f) ic
            = (b ++ (A ++ [(ic.1, pw)]), true) := by
          unfold tryPasswordStep
          rw [hdec]
          have hcondf : (b ++ A).any (fun y => y.1 == ic.1) = false := by
            rw [List.any_append, hbany, hAany]
            rfl
          rw [if_neg (by rw [hcondf]; exact Bool.false_ne_true)]
          rw [List.append_assoc]
        rw [hstep]
        have hdisj2 : ∀ x ∈ A ++ [(ic.1, pw)], ∀ ic2 ∈ t, x.1 ≠ ic2.1 := by
          intro x hx ic2 hic2
          rcases List.mem_append.mp hx with hxa | hxs
          · exact hdisj x hxa ic2 (List.mem_cons_of_mem ic hic2)
          · have hxe : x = (ic.1, pw) := by simpa using hxs
            subst hxe
            have : ic.1 ∉ t.map Prod.fst := (List.nodup_cons.mp (by simpa using hnd)).1
            intro he
            exact this (he ▸ List.mem_map_of_mem Prod.fst hic2)
        rw [ih (A ++ [(ic.1, pw)]) true hndt hdisj2]
        rw [List.filter_cons, show ((sjclDecrypt pw ic.2).isSome
            && !(b.any (fun y => y.1 == ic.1))) = true by rw [hdec, hbany]; rfl]
        simp [List.append_assoc]

/-- C7 (amended): each newly entered password is trial-decrypted against
every share and bound to every share it decrypts whose index is not
already bound (`newBindings`); when the shares' passwords are pairwise
distinct this is at most one share; and a password that produces no new
binding leaves the bindings unchanged while the loop consumes the next
entry for the SAME slot. -/
theorem c7_trial_decryption_amended {p : ℕ}
    (shares : List (Ciphertext (SharePayload p))) (b : List (ℕ × String))
    (pw : String) (entries : List String) (k : ℕ) :
    tryPassword shares b pw
      = (b ++ newBindings shares b pw, !(newBindings shares b pw).isEmpty)
    ∧ (newBindings shares b pw = [] →
        collectPasswords shares (pw :: entries) (k + 1) b
          = collectPasswords shares entries (k + 1) b)
    ∧ ((∀ i < shares.length, ∀ j < shares.length,
          ((shares.get? i).bind (fun c => sjclDecrypt pw c)).isSome = true →
          ((shares.get? j).bind (fun c => sjclDecrypt pw c)).isSome = true → i = j) →
        (newBindings shares b pw).length ≤ 1) := by
  have hmapempty : ∀ (l : List (ℕ × Ciphertext (SharePayload p))),
      (l.map (fun ic => (ic.1, pw))).isEmpty = l.isEmpty := by
    intro l
    cases l <;> rfl
  have hmain : tryPassword shares b pw
      = (b ++ newBindings shares b pw, !(newBindings shares b pw).isEmpty) := by
    unfold tryPassword newBindings
    have := foldl_tryPasswordStep_general pw b shares.enum [] false
      (List.nodup_enum_map_fst shares) (fun x hx => absurd hx (List.not_mem_nil x))
    rw [List.append_nil] at this
    rw [this, Bool.false_or, hmapempty]
  refine ⟨hmain, ?_, ?_⟩
  · intro hempty
    show (match tryPassword shares b pw with
      | (b2, true) => collectPasswords shares entries k b2
      | (b2, false) => collectPasswords shares entries (k + 1) b2)
      = collectPasswords shares entries (k + 1) b
    rw [hmain, hempty, List.append_nil]
    rfl
  · intro huniq
    unfold newBindings
    rw [List.length_map]
    cases hF : shares.enum.filter
        (fun ic => (sjclDecrypt pw ic.2).isSome && !(b.any (fun y => y.1 == ic.1))) with
    | nil => simp
    | cons x F2 =>
      cases hF2 : F2 with
      | nil => simp
      | cons y F3 =>
        exfalso
        have hsub : (x :: y :: F3).Sublist shares.enum := by
          rw [← hF2, ← hF]
          exact List.filter_sublist shares.enum
        have hndF : ((x :: y :: F3).map Prod.fst).Nodup :=
          (List.nodup_enum_map_fst shares).sublist (hsub.map Prod.fst)
        have hxmem : x ∈ shares.enum := hsub.subset (List.mem_cons_self x (y :: F3))
        have hymem : y ∈ shares.enum :=
          hsub.subset (List.mem_cons_of_mem x (List.mem_cons_self y F3))
        have hxcond : ((sjclDecrypt pw x.2).isSome && !(b.any (fun z => z.1 == x.1))) = true := by
          have : x ∈ shares.enum.filter
              (fun ic => (sjclDecrypt pw ic.2).isSome && !(b.any (fun y2 => y2.1 == ic.1))) := by
            rw [hF, hF2]
            exact List.mem_cons_self x (y :: F3)
          exact (List.mem_filter.mp this).2
        have hycond : ((sjclDecrypt pw y.2).isSome && !(b.any (fun z => z.1 == y.1))) = true := by
          have : y ∈ shares.enum.filter
              (fun ic => (sjclDecrypt pw ic.2).isSome && !(b.any (fun y2 => y2.1 == ic.1))) := by
            rw [hF, hF2]
            exact List.mem_cons_of_mem x (List.mem_cons_self y F3)
          exact (List.mem_filter.mp this).2
        have hxget : shares.get? x.1 = some x.2 := by
          rw [List.get?_eq_getElem?]
          exact List.mem_enum_iff_getElem?.mp hxmem
        have hyget : shares.get? y.1 = some y.2 := by
          rw [List.get?_eq_getElem?]
          exact List.mem_enum_iff_getElem?.mp hymem
        have hxlt : x.1 < shares.length := by
          rcases List.get?_eq_some.mp hxget with ⟨hlt2, _⟩
          exact hlt2
        have hylt : y.1 < shares.length := by
          rcases List.get?_eq_some.mp hyget with ⟨hlt2, _⟩
          exact hlt2
        have heq : x.1 = y.1 := by
          refine huniq x.1 hxlt y.1 hylt ?_ ?_
          · rw [hxget]
            exact ((Bool.and_eq_true _ _).mp hxcond).1
          · rw [hyget]
            exact ((Bool.and_eq_true _ _).mp hycond).1
        rw [List.map_cons, List.map_cons] at hndF
        have hxny : x.1 ≠ y.1 := by
          have h1 := (List.nodup_cons.mp hndF).1
          intro he
          exact h1 (he ▸ List.mem_cons_self y.1 (F3.map Prod.fst))
        exact hxny heq

/-- Witness for C7's amended theorem: two shares with distinct passwords
"x" and "y"; the entered password "q" decrypts nothing, produces no
binding, and the loop re-prompts the same slot. -/
theorem c7_amended_witness :
    tryPassword
        [sjclEncrypt "x" (SharePayload.whole (1 : ZMod 11)),
          sjclEncrypt "y" (SharePayload.whole 2)] [] "q"
      = ([] ++ newBindings
          [sjclEncrypt "x" (SharePayload.whole (1 : ZMod 11)),
            sjclEncrypt "y" (SharePayload.whole 2)] [] "q",
         !(newBindings
          [sjclEncrypt "x" (SharePayload.whole (1 : ZMod 11)),
            sjclEncrypt "y" (SharePayload.whole 2)] [] "q").isEmpty)
    ∧ collectPasswords
        [sjclEncrypt "x" (SharePayload.whole (1 : ZMod 11)),
          sjclEncrypt "y" (SharePayload.whole 2)] ["q", "x"] 1 []
      = collectPasswords
        [sjclEncrypt "x" (SharePayload.whole (1 : ZMod 11)),
          sjclEncrypt "y" (SharePayload.whole 2)] ["x"] 1 []
    ∧ (newBindings
        [sjclEncrypt "x" (SharePayload.whole (1 : ZMod 11)),
          sjclEncrypt "y" (SharePayload.whole 2)] [] "q").length ≤ 1 := by
  have h := c7_trial_decryption_amended
    [sjclEncrypt "x" (SharePayload.whole (1 : ZMod 11)),
      sjclEncrypt "y" (SharePayload.whole 2)] [] "q" ["x"] 0
  exact ⟨h.1, h.2.1 (by decide), h.2.2 (by decide)⟩

/-! ### The recovery transaction builder (claims C3, C4, C5, C8) -/

/-- Characterization of the full `buildTransaction` pipeline run with no
explicit output amount: the input loop either fails, silently returns no
`txInfo` (leading to the downstream `noTxInfo` error), or yields `t1`, in
which case the fee is set and the single output receives
`inputAmount - minerFee`, guarded by the positivity check. -/
theorem buildTransaction_eq (chain : Chain) (noSegwit : Bool)
    (dest : List WalletAddress) (srcWalletId : ℕ) (us : List Unspent)
    (recoveryAddress : ℕ) :
    buildTransaction chain noSegwit dest srcWalletId (some us) recoveryAddress
      = match buildInputsLoop dest noSegwit us initTxInfo with
        | Except.error e => Except.error e
        | Except.ok none => Except.error BuildError.noTxInfo
        | Except.ok (some t1) =>
          if t1.inputAmount - feeRates chain * (295 * (t1.inputs.length : ℤ) + 34 + 10) ≤ 0
          then Except.error BuildError.cannotPayFees
          else Except.ok
            { t1 with
              minerFee := feeRates chain * (295 * (t1.inputs.length : ℤ) + 34 + 10),
              outputAmount := t1.inputAmount
                - feeRates chain * (295 * (t1.inputs.length : ℤ) + 34 + 10),
              spendAmount := t1.inputAmount
                - feeRates chain * (295 * (t1.inputs.length : ℤ) + 34 + 10),
              outputs := t1.outputs
                ++ [{ address := recoveryAddress,
                      value := t1.inputAmount
                        - feeRates chain * (295 * (t1.inputs.length : ℤ) + 34 + 10),
                      wallet := srcWalletId, change := false }],
              externalOutputs := t1.externalOutputs
                ++ [{ address := recoveryAddress,
                      value := t1.inputAmount
                        - feeRates chain * (295 * (t1.inputs.length : ℤ) + 34 + 10),
                      wallet := srcWalletId, change := false }] } := by
  cases h : buildInputsLoop dest noSegwit us initTxInfo with
  | error e =>
    show (buildInputsLoop dest noSegwit us initTxInfo).bind _ = _
    rw [h]
    rfl
  | ok oti =>
    cases oti with
    | none =>
      show (buildInputsLoop dest noSegwit us initTxInfo).bind _ = _
      rw [h]
      rfl
    | some t1 =>
      show (buildInputsLoop dest noSegwit us initTxInfo).bind _ = _
      rw [h]
      rfl

/-! ### Claim C3 -/

/-- C3: every recovery transaction assembled by the `buildTransaction`
pipeline (`buildInputs`, then `setFees`, then `buildOutputs` with no
explicit output amount) satisfies
`inputAmount = outputAmount + minerFee` at the moment the output is
finalized, and construction aborts with an error unless
`outputAmount > 0`. -/
theorem c3_conservation (chain : Chain) (noSegwit : Bool)
    (dest : List WalletAddress) (srcWalletId : ℕ) (us : List Unspent)
    (recoveryAddress : ℕ) (t : TxInfo)
    (h : buildTransaction chain noSegwit dest srcWalletId (some us) recoveryAddress
      = Except.ok t) :
    t.inputAmount = t.outputAmount + t.minerFee ∧ 0 < t.outputAmount := by
  rw [buildTransaction_eq] at h
  split at h
  · exact Except.noConfusion h
  · exact Except.noConfusion h
  · split at h
    · exact Except.noConfusion h
    · rename_i t1 hpos
      have ht := Except.ok.inj h
      subst ht
      exact ⟨by ring, not_le.mp hpos⟩

/-- Witness for C3: a concrete successful build — one known 30000-satoshi
unspent on btc, fee `80 * (295 + 44) = 27120`, output `2880`. -/
theorem c3_witness :
    ((⟨30000, 2880, 2880, [⟨⟨7, 30000, false⟩, ⟨7, 0, 0, 0, 0⟩⟩],
        [⟨99, 2880, 1, false⟩], [⟨99, 2880, 1, false⟩], [], 27120, 0⟩ : TxInfo)).inputAmount
      = ((⟨30000, 2880, 2880, [⟨⟨7, 30000, false⟩, ⟨7, 0, 0, 0, 0⟩⟩],
        [⟨99, 2880, 1, false⟩], [⟨99, 2880, 1, false⟩], [], 27120, 0⟩ : TxInfo)).outputAmount
        + ((⟨30000, 2880, 2880, [⟨⟨7, 30000, false⟩, ⟨7, 0, 0, 0, 0⟩⟩],
        [⟨99, 2880, 1, false⟩], [⟨99, 2880, 1, false⟩], [], 27120, 0⟩ : TxInfo)).minerFee
    ∧ (0 : ℤ) < ((⟨30000, 2880, 2880, [⟨⟨7, 30000, false⟩, ⟨7, 0, 0, 0, 0⟩⟩],
        [⟨99, 2880, 1, false⟩], [⟨99, 2880, 1, false⟩], [], 27120, 0⟩ : TxInfo)).outputAmount :=
  c3_conservation Chain.btc false [⟨7, 0, 0, 0, 0⟩] 1 [⟨7, 30000, false⟩] 99 _ (by decide)

/-! ### Claim C4 -/

/-- C4 (code evaluation): with two discovered unspents — the first on an
address with no wallet-internal record, the second on a known address —
`buildInputs` executes the bare `return;` and yields no `txInfo` at all
(`ok none`, not an error and not a skip), the pipeline then dies with the
`noTxInfo` dereference, even though the second unspent's address does have
a record and is covered when the unknown one is absent. -/
theorem c4_missing_address_record_aborts :
    buildInputs [⟨7, 0, 0, 0, 0⟩] false (some [⟨5, 1000, false⟩, ⟨7, 1000, false⟩])
      = Except.ok none
    ∧ buildTransaction Chain.btc false [⟨7, 0, 0, 0, 0⟩] 1
        (some [⟨5, 1000, false⟩, ⟨7, 1000, false⟩]) 99
      = Except.error BuildError.noTxInfo
    ∧ (([⟨7, 0, 0, 0, 0⟩] : List WalletAddress).find?
        (fun a => a.address == (⟨7, 1000, false⟩ : Unspent).address)).isSome = true
    ∧ buildInputs [⟨7, 0, 0, 0, 0⟩] false (some [⟨7, 1000, false⟩])
      = Except.ok (some ⟨1000, 0, 0, [⟨⟨7, 1000, false⟩, ⟨7, 0, 0, 0, 0⟩⟩], [], [], [], 0, 0⟩) := by
  decide

/-! ### Claim C8 -/

/-- C8: for every built recovery transaction, `setFees` records
`minerFee = feeRatePerByte(sourceChain) * (295 * inputCount + 34 + 10)`,
with the per-chain rate table 20 sat/byte for bch/tbch and 80 sat/byte for
btc/tbtc. -/
theorem c8_fee_formula (chain : Chain) (noSegwit : Bool)
    (dest : List WalletAddress) (srcWalletId : ℕ) (us : List Unspent)
    (recoveryAddress : ℕ) (t : TxInfo)
    (h : buildTransaction chain noSegwit dest srcWalletId (some us) recoveryAddress
      = Except.ok t) :
    t.minerFee = feeRates chain * (295 * (t.inputs.length : ℤ) + 34 + 10)
    ∧ feeRates Chain.bch = 20 ∧ feeRates Chain.tbch = 20
    ∧ feeRates Chain.btc = 80 ∧ feeRates Chain.tbtc = 80 := by
  rw [buildTransaction_eq] at h
  split at h
  · exact Except.noConfusion h
  · exact Except.noConfusion h
  · split at h
    · exact Except.noConfusion h
    · have ht := Except.ok.inj h
      subst ht
      exact ⟨rfl, rfl, rfl, rfl, rfl⟩

/-- Witness for C8: the concrete one-input btc build of the C3 witness has
`minerFee = 80 * (295 * 1 + 34 + 10) = 27120`. -/
theorem c8_witness :
    ((⟨30000, 2880, 2880, [⟨⟨7, 30000, false⟩, ⟨7, 0, 0, 0, 0⟩⟩],
        [⟨99, 2880, 1, false⟩], [⟨99, 2880, 1, false⟩], [], 27120, 0⟩ : TxInfo)).minerFee
      = feeRates Chain.btc
        * (295 * (((⟨30000, 2880, 2880, [⟨⟨7, 30000, false⟩, ⟨7, 0, 0, 0, 0⟩⟩],
            [⟨99, 2880, 1, false⟩], [⟨99, 2880, 1, false⟩], [], 27120, 0⟩ : TxInfo)).inputs.length : ℤ)
          + 34 + 10)
    ∧ feeRates Chain.bch = 20 ∧ feeRates Chain.tbch = 20
    ∧ feeRates Chain.btc = 80 ∧ feeRates Chain.tbtc = 80 :=
  c8_fee_formula Chain.btc false [⟨7, 0, 0, 0, 0⟩] 1 [⟨7, 30000, false⟩] 99 _ (by decide)

/-! ### Claim C5 -/

/-- The input loop on `k` copies of one known unspent succeeds and
accumulates `k` inputs worth `k * value`. -/
theorem buildInputsLoop_replicate (r : WalletAddress) (u : Unspent)
    (haddr : r.address = u.address) :
    ∀ (k : ℕ) (acc : TxInfo),
      ∃ t, buildInputsLoop [r] false (List.replicate k u) acc = Except.ok (some t)
        ∧ t.inputAmount = acc.inputAmount + (k : ℤ) * (u.value : ℤ)
        ∧ t.inputs.length = acc.inputs.length + k := by
  intro k
  induction k with
  | zero =>
    intro acc
    exact ⟨acc, rfl, by push_cast; ring, by omega⟩
  | succ k ih =>
    intro acc
    rw [List.replicate_succ]
    have hcond : (u.hasWitnessScript && false) = false := Bool.and_false _
    have hfind : ([r].find? (fun a => a.address == u.address)) = some r := by
      simp [List.find?_cons, haddr]
    obtain ⟨t, hok, hin, hlen⟩ :=
      ih { acc with inputs := acc.inputs ++ [⟨u, r⟩],
                    inputAmount := acc.inputAmount + (u.value : ℤ) }
    refine ⟨t, ?_, ?_, ?_⟩
    · show buildInputsLoop [r] false (u :: List.replicate k u) acc = _
      simp only [buildInputsLoop, hcond, hfind]
      simpa using hok
    · rw [hin]
      show acc.inputAmount + (u.value : ℤ) + (k : ℤ) * (u.value : ℤ) = _
      push_cast
      ring
    · rw [hlen]
      show (acc.inputs ++ [(⟨u, r⟩ : TxInput)]).length + k = _
      rw [List.length_append]
      simp only [List.length_cons, List.length_nil]
      omega

/-- A successful loop with a positive remaining output yields the final
built transaction record. -/
theorem buildTransaction_ok_of_loop (chain : Chain) (noSegwit : Bool)
    (dest : List WalletAddress) (srcWalletId : ℕ) (us : List Unspent)
    (recoveryAddress : ℕ) (t1 : TxInfo)
    (hloop : buildInputsLoop dest noSegwit us initTxInfo = Except.ok (some t1))
    (hpos : ¬(t1.inputAmount - feeRates chain * (295 * (t1.inputs.length : ℤ) + 34 + 10) ≤ 0)) :
    buildTransaction chain noSegwit dest srcWalletId (some us) recoveryAddress
      = Except.ok
        { t1 with
          minerFee := feeRates chain * (295 * (t1.inputs.length : ℤ) + 34 + 10),
          outputAmount := t1.inputAmount
            - feeRates chain * (295 * (t1.inputs.length : ℤ) + 34 + 10),
          spendAmount := t1.inputAmount
            - feeRates chain * (295 * (t1.inputs.length : ℤ) + 34 + 10),
          outputs := t1.outputs
            ++ [{ address := recoveryAddress,
                  value := t1.inputAmount
                    - feeRates chain * (295 * (t1.inputs.length : ℤ) + 34 + 10),
                  wallet := srcWalletId, change := false }],
          externalOutputs := t1.externalOutputs
            ++ [{ address := recoveryAddress,
                  value := t1.inputAmount
                    - feeRates chain * (295 * (t1.inputs.length : ℤ) + 34 + 10),
                  wallet := srcWalletId, change := false }] } := by
  rw [buildTransaction_eq, hloop]
  exact if_neg hpos

/-- C5 (counterexample): a transaction sweeping 100 billion dust unspents
is built successfully with a miner fee of 2,360,000,000,003,520 satoshis —
EXCEEDING the total bitcoin supply of 2,100,000,000,000,000 satoshis, a
value outside any sane absolute fee band — while recovering an output of
139,999,999,996,480 satoshis; no fee-band abort exists anywhere in the
pipeline. -/
theorem c5_counterexample :
    (buildTransaction Chain.btc false [⟨7, 0, 0, 0, 0⟩] 1
        (some (List.replicate 100000000000 ⟨7, 25000, false⟩)) 99).toOption.map
        (fun t => (t.minerFee, t.outputAmount))
      = some (2360000000003520, 139999999996480)
    ∧ (2100000000000000 : ℤ) < 2360000000003520 := by
  refine ⟨?_, by norm_num⟩
  obtain ⟨t, hok, hin, hlen⟩ := buildInputsLoop_replicate ⟨7, 0, 0, 0, 0⟩
    ⟨7, 25000, false⟩ rfl 100000000000 initTxInfo
  have h0a : initTxInfo.inputAmount = 0 := rfl
  have h0l : initTxInfo.inputs.length = 0 := rfl
  rw [h0a, zero_add] at hin
  rw [h0l, Nat.zero_add] at hlen
  have hfee : feeRates Chain.btc = 80 := rfl
  have hpos : ¬(t.inputAmount
      - feeRates Chain.btc * (295 * (t.inputs.length : ℤ) + 34 + 10) ≤ 0) := by
    rw [hin, hlen, hfee]
    norm_num
  rw [buildTransaction_ok_of_loop Chain.btc false [⟨7, 0, 0, 0, 0⟩] 1
    (List.replicate 100000000000 ⟨7, 25000, false⟩) 99 t hok hpos]
  show some (feeRates Chain.btc * (295 * (t.inputs.length : ℤ) + 34 + 10),
      t.inputAmount - feeRates Chain.btc * (295 * (t.inputs.length : ℤ) + 34 + 10))
    = some (2360000000003520, 139999999996480)
  rw [hin, hlen, hfee]
  norm_num

/-- C5 (amended): the pipeline checks the computed fee against no band at
all — the only economic abort is a non-positive output amount — so
successfully built transactions exist whose miner fee exceeds any given
bound. -/
theorem c5_no_fee_band (B : ℤ) :
    ∃ (k : ℕ) (t : TxInfo),
      buildTransaction Chain.btc false [⟨7, 0, 0, 0, 0⟩] 1
        (some (List.replicate k ⟨7, 25000, false⟩)) 99 = Except.ok t
      ∧ B < t.minerFee := by
  obtain ⟨t, hok, hin, hlen⟩ := buildInputsLoop_replicate ⟨7, 0, 0, 0, 0⟩
    ⟨7, 25000, false⟩ rfl (3 + B.toNat) initTxInfo
  have h0a : initTxInfo.inputAmount = 0 := rfl
  have h0l : initTxInfo.inputs.length = 0 := rfl
  rw [h0a, zero_add] at hin
  rw [h0l, Nat.zero_add] at hlen
  have hfee : feeRates Chain.btc = 80 := rfl
  have hpos : ¬(t.inputAmount
      - feeRates Chain.btc * (295 * (t.inputs.length : ℤ) + 34 + 10) ≤ 0) := by
    rw [hin, hlen, hfee]
    push_cast
    omega
  refine ⟨3 + B.toNat, _, buildTransaction_ok_of_loop Chain.btc false
    [⟨7, 0, 0, 0, 0⟩] 1 (List.replicate (3 + B.toNat) ⟨7, 25000, false⟩) 99 t hok hpos, ?_⟩
  show B < feeRates Chain.btc * (295 * (t.inputs.length : ℤ) + 34 + 10)
  have hBt : B ≤ (B.toNat : ℤ) := Int.self_le_toNat B
  rw [hlen, hfee]
  push_cast
  omega

/-! ### Claim C9 -/

/-- C9 (code evaluation): `n` and `m` are range-validated with re-prompting
by `getIntVariable`, but `nkeys` goes through `getVariable`, whose fourth
parameter is `defaultValue` — the intended bounds `1` and `100000` are
never enforced.  An out-of-range `nkeys` of 200000 is accepted and
generation proceeds to a 200000-record batch; `nkeys = 0` is accepted and
an empty batch file is still produced. -/
theorem c9_nkeys_not_validated :
    getIntVariable 1 10 [11] = none
    ∧ getIntVariable 1 10 [11, 5] = some 5
    ∧ handleSplitKeysParams [3] [2] [200000] = some (3, 2, 200000)
    ∧ handleSplitKeysParams [3] [2] [0] = some (3, 2, 0)
    ∧ handleSplitKeysModel (fun s : ZMod 11 => s.val) [3] [2] [200000]
        (fun i => (i : ZMod 11)) (fun _ => [3]) (fun i => toString i)
      = some (splitKeysBatch (fun s : ZMod 11 => s.val) 2 3 200000
          (fun i => (i : ZMod 11)) (fun _ => [3]) (fun i => toString i))
    ∧ (splitKeysBatch (fun s : ZMod 11 => s.val) 2 3 200000
        (fun i => (i : ZMod 11)) (fun _ => [3]) (fun i => toString i)).length = 200000
    ∧ handleSplitKeysModel (fun s : ZMod 11 => s.val) [3] [2] [0]
        (fun i => (i : ZMod 11)) (fun _ => [3]) (fun i => toString i)
      = some [] := by
  refine ⟨by decide, by decide, by decide, by decide, rfl, ?_, rfl⟩
  rw [splitKeysBatch, List.length_map, List.length_range]

/-! ### Claim C10 -/

/-- Positional selection agrees with index-field selection on any list
whose records' `index` fields equal their positions (shifted by `k`). -/
theorem select_agree_from {p : ℕ} :
    ∀ (l : List (SplitKeyRecord p)) (k : ℕ) (I : List ℕ),
      (∀ j r, l.get? j = some r → r.index = k + j) →
      ((l.enumFrom k).filter (fun ik => I.contains ik.1)).map (fun ik => ik.2)
        = l.filter (fun r => I.contains r.index) := by
  intro l
  induction l with
  | nil => intro k I _; rfl
  | cons a t ih =>
    intro k I h
    have ha : a.index = k := by
      have := h 0 a rfl
      omega
    simp only [List.enumFrom, List.filter_cons, ha]
    have ht := ih (k + 1) I (fun j r hj => by
      have := h (j + 1) r hj
      omega)
    cases hc : I.contains k with
    | true =>
      rw [if_pos rfl, if_pos rfl, List.map_cons, ht]
    | false =>
      rw [if_neg Bool.false_ne_true, if_neg Bool.false_ne_true, ht]

/-- Every record of a `handleSplitKeys` batch carries its array position as
its `index` field. -/
theorem splitKeysBatch_get_index {p : ℕ} (deriveXpub : ZMod p → ℕ)
    (m n nkeys : ℕ) (seeds : ℕ → ZMod p) (coeffss : ℕ → List (ZMod p))
    (passwords : ℕ → String) (i : ℕ) (r : SplitKeyRecord p)
    (h : (splitKeysBatch deriveXpub m n nkeys seeds coeffss passwords).get? i = some r) :
    r.index = i := by
  rw [splitKeysBatch, List.get?_map] at h
  cases hr : (List.range nkeys).get? i with
  | none =>
    rw [hr] at h
    exact Option.noConfusion h
  | some j =>
    rw [hr] at h
    have hlt : i < nkeys := by
      rcases List.get?_eq_some.mp hr with ⟨hlt2, _⟩
      simpa using hlt2
    rw [List.get?_range hlt] at hr
    have hj : j = i := (Option.some.inj hr).symm
    subst hj
    have := Option.some.inj h
    rw [← this]
    rfl

/-- C10: in every batch written by `handleSplitKeys`, the record at
position `i` has `index = i` (consecutive from 0), and `handleRecoverKeys`'
selection by array position coincides with selection by the `index` field
on such files. -/
theorem c10_selection_agreement {p : ℕ} (deriveXpub : ZMod p → ℕ)
    (m n nkeys : ℕ) (seeds : ℕ → ZMod p) (coeffss : ℕ → List (ZMod p))
    (passwords : ℕ → String) (I : List ℕ) (i : ℕ) (r : SplitKeyRecord p)
    (h : (splitKeysBatch deriveXpub m n nkeys seeds coeffss passwords).get? i = some r) :
    r.index = i
    ∧ selectByPosition (splitKeysBatch deriveXpub m n nkeys seeds coeffss passwords) I
      = selectByIndexField (splitKeysBatch deriveXpub m n nkeys seeds coeffss passwords) I := by
  refine ⟨splitKeysBatch_get_index deriveXpub m n nkeys seeds coeffss passwords i r h, ?_⟩
  unfold selectByPosition selectByIndexField
  exact select_agree_from _ 0 I (fun j r2 h2 => by
    rw [splitKeysBatch_get_index deriveXpub m n nkeys seeds coeffss passwords j r2 h2]
    omega)

/-- Witness for C10: a 3-record batch; the record at position 1 has index 1
and positional selection of indices 0 and 2 equals index-field selection. -/
theorem c10_witness :
    (toolRecord (fun s : ZMod 11 => s.val) 1 1 1 ((1 : ℕ) : ZMod 11) [] (fun i => toString i)).index = 1
    ∧ selectByPosition (splitKeysBatch (fun s : ZMod 11 => s.val) 1 1 3
        (fun i => (i : ZMod 11)) (fun _ => []) (fun i => toString i)) [0, 2]
      = selectByIndexField (splitKeysBatch (fun s : ZMod 11 => s.val) 1 1 3
        (fun i => (i : ZMod 11)) (fun _ => []) (fun i => toString i)) [0, 2] :=
  c10_selection_agreement (fun s : ZMod 11 => s.val) 1 1 3
    (fun i => (i : ZMod 11)) (fun _ => []) (fun i => toString i) [0, 2] 1
    (toolRecord (fun s : ZMod 11 => s.val) 1 1 1 ((1 : ℕ) : ZMod 11) [] (fun i => toString i))
    rfl

end BitgoCli
